import Mathlib

/-!
Verification development for the bar-slicing / effect-processing engine of
the `mixaqubes` repository (files `clips.py` and `mixaqubes.py`).

The Python code is shallowly embedded as follows:
* byte strings are `List ℕ` (each entry a byte value, i.e. `< 256`);
* Python floats are modelled exactly: the decibel bookkeeping of `FadeIn`
  only ever adds and clamps the literals `-30.0` and `10.0`, so it is carried
  in `ℚ`; the per-sample signal path (`10 ** (dB/20)`, `torch.linspace`,
  elementwise multiplication, the cast back to `int16`) is carried in `ℝ`;
* fallible operations (`bars[i]`, `np.frombuffer`/`np.stack` on misaligned
  data, indexing a tensor with fewer than two rows) return `Option`;
* object mutation is explicit state passing: `FadeIn.process` returns the
  new effect state, `Clip.next_bar` returns the produced buffer together
  with the updated clip.
-/

namespace Mixaqubes

/-- Audio format descriptor as used by the code through
`pyglet.media.codecs.AudioFormat`: sample rate in Hz, channel count and bits
per sample. -/
structure AudioFormat where
  sample_rate : ℕ
  channels : ℕ
  sample_size : ℕ
deriving DecidableEq

/-- Derived quantity used by `mixaqubes.py`: `channels * sample_size // 8`
(pyglet computes `(sample_size >> 3) * channels`, the same value). -/
def AudioFormat.bytes_per_sample (f : AudioFormat) : ℕ :=
  f.channels * f.sample_size / 8

/-- Derived quantity: `bytes_per_sample * sample_rate` (pyglet). -/
def AudioFormat.bytes_per_second (f : AudioFormat) : ℕ :=
  AudioFormat.bytes_per_sample f * f.sample_rate

/-- A `MemorySource` (defined identically in `clips.py` and `mixaqubes.py`):
a byte buffer together with its audio format.  The derived `_duration` and
the `BytesIO` wrapper carry no extra information and are omitted. -/
structure MemorySource where
  data : List ℕ
  audio_format : AudioFormat
deriving DecidableEq

/-- Python `int(q)` on a rational: truncation toward zero. -/
def intTrunc (q : ℚ) : ℤ :=
  if q < 0 then -⌊-q⌋ else ⌊q⌋

/-- Byte offset produced by `MemorySource.seek`:
`offset = int(timestamp * bytes_per_second)` followed by
`offset &= 0xfffffffe` when `bytes_per_sample == 2` and
`offset &= 0xfffffffc` when `bytes_per_sample == 4` (no mask otherwise).
The returned value is the position handed to `self._file.seek`.
For the nonnegative timestamps the claims quantify over, the Python
arbitrary-precision `int` is a natural number, embedded via `Int.toNat`. -/
def MemorySource.seek (s : MemorySource) (timestamp : ℚ) : ℕ :=
  let offset : ℕ :=
    (intTrunc (timestamp * (AudioFormat.bytes_per_second s.audio_format : ℚ))).toNat
  if AudioFormat.bytes_per_sample s.audio_format = 2 then
    Nat.land offset 0xfffffffe
  else if AudioFormat.bytes_per_sample s.audio_format = 4 then
    Nat.land offset 0xfffffffc
  else offset

/-- Python 3 `round` on an exact value: round half to even. -/
def pyRound (q : ℚ) : ℤ :=
  let f := ⌊q⌋
  let r := q - f
  if r < 1 / 2 then f
  else if 1 / 2 < r then f + 1
  else if f % 2 = 0 then f else f + 1

/-- `samples_per_beat = round((60.0 / bpm) * sample_rate)` from
`PlayerWindow.cache_active_clip`. -/
def samples_per_beat (bpm : ℚ) (sample_rate : ℕ) : ℤ :=
  pyRound (60 / bpm * (sample_rate : ℚ))

/-- The list comprehension
`[data[i:i+bpb] for i in range(0, len(data), bpb)]` from
`cache_active_clip`: contiguous chunks of `bpb` bytes, the trailing chunk
possibly short.  `range(0, len, bpb)` has `⌈len / bpb⌉` elements for
`bpb > 0`; Python raises `ValueError` on step `0`, which the claims exclude
via positivity hypotheses. -/
def chunks (bpb : ℕ) (data : List ℕ) : List (List ℕ) :=
  (List.range ((data.length + bpb - 1) / bpb)).map
    (fun i => (data.drop (i * bpb)).take bpb)

/-- Result of `PlayerWindow.cache_active_clip`: the clip/loop pair may be
missing from the manifest (`notInDb`, the code prints and returns `None`),
the media file may be missing (`processExit`: the code calls `exit(0)`,
terminating the whole process), or a list of bar `MemorySource`s is cached. -/
inductive CacheResult where
  | notInDb : CacheResult
  | processExit : CacheResult
  | cached : List MemorySource → CacheResult
deriving DecidableEq

/-- The slicing path of `PlayerWindow.cache_active_clip` from
`mixaqubes.py`.  `inDb` stands for `meta is not None`, `mediaExists` for
`media_path.exists()`, and `decoded` for the full decoded PCM stream backing
`loop`; `loop.get_audio_data(n)` returns the first `n` bytes of that stream,
silently returning fewer when the stream is shorter (`List.take`).
`samples_per_beat` is nonnegative for the positive `bpm` the claims use, so
the Python integers embed via `Int.toNat`. -/
def cache_active_clip (inDb : Bool) (mediaExists : Bool) (decoded : List ℕ)
    (fmt : AudioFormat) (bpm : ℚ) (beats : ℕ) : CacheResult :=
  if inDb then
    if mediaExists then
      let spb : ℕ := (samples_per_beat bpm fmt.sample_rate).toNat
      let bps : ℕ := AudioFormat.bytes_per_sample fmt
      let bytes_per_bar : ℕ := 4 * spb * bps
      let full_loop : List ℕ := decoded.take (spb * bps * beats)
      CacheResult.cached ((chunks bytes_per_bar full_loop).map
        (fun d => ⟨d, fmt⟩))
    else CacheResult.processExit
  else CacheResult.notInDb

/-- State of the `FadeIn` effect from `clips.py`: `self.gain` and
`self.increment`, both decibel values. -/
structure FadeIn where
  gain : ℚ
  increment : ℚ
deriving DecidableEq

/-- `FadeIn.__init__`: `gain = -30.0`, `increment = 10.0`. -/
def FadeIn.mk0 : FadeIn := ⟨-30, 10⟩

/-- `FadeIn.step`: `gain += increment; if gain > 0.0: gain = 0.0`. -/
def FadeIn.step (f : FadeIn) : FadeIn :=
  let g := f.gain + f.increment
  ⟨if 0 < g then 0 else g, f.increment⟩

/-- `FadeIn.is_done`: `gain >= 0.0`. -/
def FadeIn.is_done (f : FadeIn) : Bool :=
  decide (0 ≤ f.gain)

/-- `end_gain = gain + increment; if end_gain > 0.0: end_gain = 0.0` from
`FadeIn.process`. -/
def FadeIn.endGain (f : FadeIn) : ℚ :=
  let e := f.gain + f.increment
  if 0 < e then 0 else e

/-- Amplitude of a decibel gain: `10 ** (g / 20)` from `FadeIn.process`
(the local variables `start_ratio` and `end_ratio` are both of this form). -/
noncomputable def amp (g : ℚ) : ℝ :=
  (10 : ℝ) ^ (((g : ℝ)) / 20)

/-- `torch.linspace(s, e, n)`: `n` evenly spaced points from `s` to `e`,
both endpoints included; for `n = 1` the single point is `s`, for `n = 0`
the result is empty. -/
noncomputable def linspace (s e : ℝ) (n : ℕ) : List ℝ :=
  (List.range n).map
    (fun (i : ℕ) => if n ≤ 1 then s else s + (e - s) * (i : ℝ) / ((n : ℝ) - 1))

/-- A deinterleaved audio tensor, as built by `np.stack` /
`torch.tensor` in `Clip.to_torch`: a list of per-channel rows (the stack of
the two slices `raw_ints[::2]` and `raw_ints[1::2]`). -/
abbrev Torch := List (List ℝ)

/-- `torchdata.size()[-1]`: the length of the last tensor dimension, i.e.
of a row (all rows of a stacked tensor have equal length). -/
def lastDim (td : Torch) : ℕ :=
  match td with
  | ch :: _ => ch.length
  | [] => 0

/-- The ramp `torch.linspace(start_ratio, end_ratio, torchdata.size()[-1])`
built by `FadeIn.process` in the given state for a tensor whose last
dimension has size `n`. -/
noncomputable def FadeIn.fade (f : FadeIn) (n : ℕ) : List ℝ :=
  linspace (amp f.gain) (amp (FadeIn.endGain f)) n

/-- `FadeIn.process(torchdata)`: multiply every channel elementwise by the
ramp (`proc = torchdata * fade` broadcasts the ramp over the channel
dimension), then `self.step()`; returns the processed tensor together with
the stepped effect state that the mutation leaves behind. -/
noncomputable def FadeIn.process (f : FadeIn) (td : Torch) : Torch × FadeIn :=
  (td.map (fun ch => List.zipWith (fun x r => x * r) ch (FadeIn.fade f (lastDim td))),
   FadeIn.step f)

/-- `np.frombuffer(data, dtype=np.int16)`: consecutive little-endian byte
pairs decoded as signed 16-bit integers (two's complement). -/
def toWords : List ℕ → List ℤ
  | lo :: hi :: rest =>
    (if lo + 256 * hi < 32768 then ((lo + 256 * hi : ℕ) : ℤ)
     else ((lo + 256 * hi : ℕ) : ℤ) - 65536) :: toWords rest
  | _ => []

/-- The slice `xs[::2]`: elements at even indices. -/
def evens {α : Type} : List α → List α
  | x :: _ :: rest => x :: evens rest
  | [x] => [x]
  | [] => []

/-- The slice `xs[1::2]`: elements at odd indices. -/
def odds {α : Type} : List α → List α
  | _ :: y :: rest => y :: odds rest
  | _ => []

/-- `Clip.to_torch`: decode the buffer's bytes as `int16`, split into the
two slices `a = raw_ints[::2]` and `b = raw_ints[1::2]`, stack them and
convert to a float tensor.  `np.frombuffer` rejects a byte count that is
not a multiple of the 2-byte item size and `np.stack` rejects slices of
unequal length; together the call succeeds exactly when the byte count is a
multiple of 4. -/
noncomputable def Clip.to_torch (data : List ℕ) : Option Torch :=
  if data.length % 4 = 0 then
    some [(evens (toWords data)).map (fun w => ((w : ℤ) : ℝ)),
          (odds (toWords data)).map (fun w => ((w : ℤ) : ℝ))]
  else none

/-- The C-style cast performed by `astype(np.int16)` on a float value:
truncation toward zero. -/
noncomputable def truncZ (x : ℝ) : ℤ :=
  if x < 0 then -⌊-x⌋ else ⌊x⌋

/-- The two little-endian bytes `tobytes()` emits for one `int16` value
(two's complement). -/
def int16Bytes (v : ℤ) : List ℕ :=
  [(v % 65536).toNat % 256, (v % 65536).toNat / 256]

/-- The interleaving `stream[0::2] = a; stream[1::2] = b` from
`Clip.from_torch`, for channels of equal length (`np.empty` is sized as
`a.size + b.size`, so the strided assignments only succeed for compatible
lengths). -/
def interleave {α : Type} : List α → List α → List α
  | x :: xs, y :: ys => x :: y :: interleave xs ys
  | _, _ => []

/-- `Clip.from_torch`: read the two channel rows `stereo_channels[0]` and
`stereo_channels[1]`, interleave them, cast each float to `int16` with
`astype` and serialize with `tobytes`; indexing fails when the tensor has
fewer than two rows. -/
noncomputable def Clip.from_torch (td : Torch) : Option (List ℕ) :=
  match td with
  | ch0 :: ch1 :: _ =>
    some ((interleave ch0 ch1).flatMap (fun x => int16Bytes (truncZ x)))
  | _ => none

/-- The `Clip` object from `clips.py`.  `bar` is the integer play cursor
(`self.bar`), `current_bar` the buffer cached by the last `next_bar` call
(absent until the first call). -/
structure Clip where
  name : String
  element : String
  bars : List MemorySource
  bpm : ℚ
  key : String
  bar : ℕ
  magnitude : ℚ
  effects : List FadeIn
  state : String
  current_bar : Option MemorySource

/-- `Clip.__init__`: cursor at `0`, magnitude `1.0`, a single fresh
`FadeIn` in the effect list, state `"cued"`. -/
def Clip.mk0 (name element : String) (bars : List MemorySource)
    (bpm : ℚ) (key : String) : Clip :=
  ⟨name, element, bars, bpm, key, 0, 1, [FadeIn.mk0], "cued", none⟩

/-- `Clip.next_bar`: read `bars[self.bar]`, deinterleave it, apply the head
effect when the effect list is nonempty and pop it when `is_done()` holds
after `process`, reinterleave, cache the produced buffer in
`self.current_bar`, advance `self.bar` modulo `len(self.bars)` and return
the buffer.  `from_torch` builds the new `MemorySource` with
`self.audio_format`, which `to_torch` copied from the source bar.  The
`Option` failures model `IndexError` on an out-of-range cursor and the
numpy errors on misaligned bytes. -/
noncomputable def Clip.next_bar (c : Clip) : Option (MemorySource × Clip) :=
  match c.bars[c.bar]? with
  | none => none
  | some src =>
    match Clip.to_torch src.data with
    | none => none
    | some td =>
      let processed : Torch × List FadeIn :=
        match c.effects with
        | [] => (td, [])
        | e :: rest =>
          if FadeIn.is_done (FadeIn.process e td).2
          then ((FadeIn.process e td).1, rest)
          else ((FadeIn.process e td).1, (FadeIn.process e td).2 :: rest)
      match Clip.from_torch processed.1 with
      | none => none
      | some outBytes =>
        some (⟨outBytes, src.audio_format⟩,
          { c with
            bar := (c.bar + 1) % c.bars.length
            effects := processed.2
            current_bar := some ⟨outBytes, src.audio_format⟩ })

/-- Effect state after `k` completed `process` calls starting from a fresh
`FadeIn` (each `process` call runs `step` exactly once). -/
def fadeAt (k : ℕ) : FadeIn :=
  FadeIn.step^[k] FadeIn.mk0

/-- The 16-bit stereo format at 44100 Hz that the manifest promises for all
decoded loops. -/
def fmt16s : AudioFormat := ⟨44100, 2, 16⟩

/-- A 16-bit mono format (same bit depth, one channel). -/
def fmtMono : AudioFormat := ⟨44100, 1, 16⟩

/-- A 16-bit stereo format with a tiny 2 Hz sample rate, keeping concrete
slicer computations small. -/
def fmtTiny : AudioFormat := ⟨2, 2, 16⟩

/-- A one-frame silent stereo bar (two zero samples, four bytes). -/
def srcZero : MemorySource := ⟨[0, 0, 0, 0], fmt16s⟩

/-- A one-frame stereo bar whose left sample is `10000 = 0x2710`
(little-endian bytes `16, 39`) and right sample is `0`. -/
def srcTen : MemorySource := ⟨[16, 39, 0, 0], fmt16s⟩

/-- A four-byte buffer carrying a mono format descriptor. -/
def srcMono : MemorySource := ⟨[0, 0, 0, 0], fmtMono⟩

/-- A freshly constructed two-bar clip used as the concrete scenario
instance. -/
def cexClip : Clip := Clip.mk0 "cex" "intro" [srcZero, srcTen] 128 "8A"

/-- The scenario clip after its first `next_bar` call. -/
def cexClip1 : Clip :=
  { cexClip with
    bar := 1
    effects := [⟨-20, 10⟩]
    current_bar := some ⟨[0, 0, 0, 0], fmt16s⟩ }

/-- The scenario clip after its second `next_bar` call. -/
def cexClip2 : Clip :=
  { cexClip1 with
    bar := 0
    effects := [⟨-10, 10⟩]
    current_bar := some ⟨[232, 3, 0, 0], fmt16s⟩ }

lemma fadeAt_succ (k : ℕ) : fadeAt (k + 1) = FadeIn.step (fadeAt k) := by
  simp [fadeAt, Function.iterate_succ_apply']

lemma FadeIn.process_state (f : FadeIn) (td : Torch) :
    (FadeIn.process f td).2 = FadeIn.step f := rfl

lemma FadeIn.endGain_eq_step_gain (f : FadeIn) :
    FadeIn.endGain f = (FadeIn.step f).gain := rfl

lemma FadeIn.step_gain_nonpos (f : FadeIn) : (FadeIn.step f).gain ≤ 0 := by
  unfold FadeIn.step
  dsimp only
  split
  · exact le_refl 0
  · linarith [not_lt.mp (by assumption : ¬ (0 : ℚ) < f.gain + f.increment)]

lemma FadeIn.step_gain_ge (f : FadeIn) (h0 : f.gain ≤ 0) (hi : 0 ≤ f.increment) :
    f.gain ≤ (FadeIn.step f).gain := by
  unfold FadeIn.step
  dsimp only
  split
  · exact h0
  · linarith

lemma FadeIn.step_increment (f : FadeIn) : (FadeIn.step f).increment = f.increment := rfl

lemma fadeAt_increment (k : ℕ) : (fadeAt k).increment = 10 := by
  induction k with
  | zero => rfl
  | succ k ih => rw [fadeAt_succ, FadeIn.step_increment, ih]

lemma fadeAt_gain_nonpos (k : ℕ) : (fadeAt k).gain ≤ 0 := by
  cases k with
  | zero => norm_num [fadeAt, FadeIn.mk0]
  | succ k => rw [fadeAt_succ]; exact FadeIn.step_gain_nonpos _

lemma fadeAt_gain_mono (k : ℕ) : (fadeAt k).gain ≤ (fadeAt (k + 1)).gain := by
  rw [fadeAt_succ]
  exact FadeIn.step_gain_ge _ (fadeAt_gain_nonpos k) (by rw [fadeAt_increment]; norm_num)

lemma fadeAt_one : fadeAt 1 = ⟨-20, 10⟩ := by
  norm_num [fadeAt, FadeIn.step, FadeIn.mk0]

lemma fadeAt_two : fadeAt 2 = ⟨-10, 10⟩ := by
  norm_num [fadeAt, Function.iterate_succ_apply, FadeIn.step, FadeIn.mk0]

lemma fadeAt_three : fadeAt 3 = ⟨0, 10⟩ := by
  norm_num [fadeAt, Function.iterate_succ_apply, FadeIn.step, FadeIn.mk0]

lemma amp_mono {g h : ℚ} (hg : g ≤ h) : amp g ≤ amp h := by
  unfold amp
  apply Real.rpow_le_rpow_of_exponent_le (by norm_num)
  have : (g : ℝ) ≤ (h : ℝ) := by exact_mod_cast hg
  linarith

lemma amp_le_one {g : ℚ} (hg : g ≤ 0) : amp g ≤ 1 := by
  unfold amp
  apply Real.rpow_le_one_of_one_le_of_nonpos (by norm_num)
  have : (g : ℝ) ≤ 0 := by exact_mod_cast hg
  linarith

lemma amp_zero : amp 0 = 1 := by
  unfold amp
  norm_num

lemma amp_neg20 : amp (-20) = (10 : ℝ)⁻¹ := by
  unfold amp
  rw [show (((-20 : ℚ) : ℝ)) / 20 = ((-1 : ℤ) : ℝ) by push_cast; norm_num]
  rw [Real.rpow_intCast]
  norm_num

lemma linspace_length (s e : ℝ) (n : ℕ) : (linspace s e n).length = n := by
  simp [linspace]

lemma linspace_getLast (s e : ℝ) {n : ℕ} (hn : 2 ≤ n) :
    (linspace s e n).getLast? = some e := by
  rw [List.getLast?_eq_getElem?, linspace_length]
  have hlt : n - 1 < n := by omega
  rw [linspace, List.getElem?_map, List.getElem?_range hlt]
  have h1 : ¬ n ≤ 1 := by omega
  rw [Option.map_some', if_neg h1]
  have hcast : (((n - 1 : ℕ)) : ℝ) = (n : ℝ) - 1 := by
    have h1n : (1 : ℕ) ≤ n := by omega
    have := Nat.cast_sub (R := ℝ) h1n
    simpa using this
  have hne : (n : ℝ) - 1 ≠ 0 := by
    have : (2 : ℝ) ≤ (n : ℝ) := by exact_mod_cast hn
    linarith
  rw [hcast, mul_div_assoc, div_self hne]
  norm_num

lemma linspace_head (s e : ℝ) {n : ℕ} (hn : 1 ≤ n) :
    (linspace s e n)[0]? = some s := by
  have hlt : 0 < n := hn
  rw [linspace, List.getElem?_map, List.getElem?_range hlt, Option.map_some']
  by_cases h1 : n ≤ 1
  · rw [if_pos h1]
  · rw [if_neg h1]
    norm_num

lemma linspace_mem_le_right {s e : ℝ} (h : s ≤ e) (n : ℕ) :
    ∀ x ∈ linspace s e n, x ≤ e := by
  intro x hx
  simp only [linspace, List.mem_map, List.mem_range] at hx
  obtain ⟨i, hi, rfl⟩ := hx
  by_cases h1 : n ≤ 1
  · rw [if_pos h1]; exact h
  · rw [if_neg h1]
    have hn1 : (0 : ℝ) < (n : ℝ) - 1 := by
      have h2 : (2 : ℕ) ≤ n := by omega
      have : (2 : ℝ) ≤ (n : ℝ) := by exact_mod_cast h2
      linarith
    have hfrac : (i : ℝ) / ((n : ℝ) - 1) ≤ 1 := by
      rw [div_le_one hn1]
      have hile : i ≤ n - 1 := by omega
      have := (Nat.cast_le (α := ℝ)).mpr hile
      have h1n : (1 : ℕ) ≤ n := by omega
      rw [Nat.cast_sub h1n] at this
      simpa using this
    have hnn : (0 : ℝ) ≤ (i : ℝ) / ((n : ℝ) - 1) := by positivity
    have h2 : (e - s) * ((i : ℝ) / ((n : ℝ) - 1)) ≤ (e - s) * 1 :=
      mul_le_mul_of_nonneg_left hfrac (by linarith)
    calc s + (e - s) * (i : ℝ) / ((n : ℝ) - 1)
        = s + (e - s) * ((i : ℝ) / ((n : ℝ) - 1)) := by ring
      _ ≤ s + (e - s) * 1 := by linarith
      _ = e := by ring

lemma truncZ_intCast (w : ℤ) : truncZ ((w : ℝ)) = w := by
  unfold truncZ
  by_cases h : ((w : ℝ)) < 0
  · rw [if_pos h]
    rw [show -((w : ℝ)) = (((-w : ℤ)) : ℝ) by push_cast; ring]
    rw [Int.floor_intCast]
    ring
  · rw [if_neg h, Int.floor_intCast]

lemma word_bytes (lo hi : ℕ) (hlo : lo < 256) (hhi : hi < 256) :
    int16Bytes
      (if lo + 256 * hi < 32768 then ((lo + 256 * hi : ℕ) : ℤ)
       else ((lo + 256 * hi : ℕ) : ℤ) - 65536) = [lo, hi] := by
  by_cases h : lo + 256 * hi < 32768
  · rw [if_pos h]
    unfold int16Bytes
    simp only [List.cons.injEq, and_true]
    constructor <;> omega
  · rw [if_neg h]
    unfold int16Bytes
    simp only [List.cons.injEq, and_true]
    have hub : lo + 256 * hi < 65536 := by omega
    constructor <;> omega

lemma deinterleave_roundtrip :
    ∀ (data : List ℕ), data.length % 4 = 0 → (∀ x ∈ data, x < 256) →
      (interleave ((evens (toWords data)).map (fun w => ((w : ℤ) : ℝ)))
          ((odds (toWords data)).map (fun w => ((w : ℤ) : ℝ)))).flatMap
        (fun x => int16Bytes (truncZ x)) = data
  | [], _, _ => by simp [toWords, evens, odds, interleave]
  | [a], h4, _ => by simp at h4
  | [a, b], h4, _ => by simp at h4
  | [a, b, c], h4, _ => by simp at h4
  | a :: b :: c :: d :: rest, h4, hb => by
    have h4r : rest.length % 4 = 0 := by
      simp only [List.length_cons] at h4
      omega
    have ih := deinterleave_roundtrip rest h4r (fun x hx => hb x (by simp [hx]))
    simp only [toWords, evens, odds, interleave, List.map_cons,
      List.flatMap_cons, truncZ_intCast]
    rw [word_bytes a b (hb a (by simp)) (hb b (by simp)),
        word_bytes c d (hb c (by simp)) (hb d (by simp))]
    simp only [toWords, evens, odds, interleave, List.map_cons,
      List.flatMap_cons, truncZ_intCast] at ih
    simp [ih]

lemma to_torch_of_aligned (data : List ℕ) (h4 : data.length % 4 = 0) :
    Clip.to_torch data =
      some [(evens (toWords data)).map (fun w => ((w : ℤ) : ℝ)),
            (odds (toWords data)).map (fun w => ((w : ℤ) : ℝ))] := by
  unfold Clip.to_torch
  rw [if_pos h4]

lemma roundtrip (data : List ℕ) (h4 : data.length % 4 = 0)
    (hb : ∀ x ∈ data, x < 256) :
    (Clip.to_torch data).bind Clip.from_torch = some data := by
  rw [to_torch_of_aligned data h4, Option.some_bind]
  simp only [Clip.from_torch]
  rw [deinterleave_roundtrip data h4 hb]

lemma toWords_length : ∀ data : List ℕ, (toWords data).length = data.length / 2
  | [] => by simp [toWords]
  | [a] => by simp [toWords]
  | a :: b :: rest => by
    have ih := toWords_length rest
    simp only [toWords, List.length_cons, ih]
    omega

lemma evens_length {α : Type} : ∀ l : List α, (evens l).length = (l.length + 1) / 2
  | [] => by simp [evens]
  | [a] => by simp [evens]
  | a :: b :: rest => by
    have ih := evens_length rest
    simp only [evens, List.length_cons, ih]
    omega

lemma odds_length {α : Type} : ∀ l : List α, (odds l).length = l.length / 2
  | [] => by simp [odds]
  | [a] => by simp [odds]
  | a :: b :: rest => by
    have ih := odds_length rest
    simp only [odds, List.length_cons, ih]
    omega

lemma next_bar_spec (c : Clip) (src : MemorySource)
    (hsrc : c.bars[c.bar]? = some src)
    (h4 : src.data.length % 4 = 0) :
    ∃ td out c',
      Clip.to_torch src.data = some td ∧
      Clip.next_bar c = some (out, c') ∧
      out.audio_format = src.audio_format ∧
      c'.bar = (c.bar + 1) % c.bars.length ∧
      c'.bars = c.bars ∧
      (c.effects = [] → c'.effects = [] ∧
        ((∀ x ∈ src.data, x < 256) → out.data = src.data)) ∧
      (∀ e rest, c.effects = e :: rest →
        c'.effects =
          if FadeIn.is_done (FadeIn.process e td).2 then rest
          else (FadeIn.process e td).2 :: rest) := by
  have hT := to_torch_of_aligned src.data h4
  cases hE : c.effects with
  | nil =>
    have hex : ∃ out c', Clip.next_bar c = some (out, c') := by
      simp only [Clip.next_bar, hsrc, hT, hE, Clip.from_torch]
      exact ⟨_, _, rfl⟩
    obtain ⟨out, c', hnb⟩ := hex
    have hval := hnb
    simp only [Clip.next_bar, hsrc, hT, hE, Clip.from_torch,
      Option.some.injEq, Prod.mk.injEq] at hval
    obtain ⟨hout, hc'⟩ := hval
    refine ⟨_, out, c', hT, hnb, ?_, ?_, ?_, ?_, ?_⟩
    · rw [← hout]
    · rw [← hc']
    · rw [← hc']
    · intro _
      refine ⟨by rw [← hc'], ?_⟩
      intro hb
      rw [← hout]
      exact deinterleave_roundtrip src.data h4 hb
    · intro e rest hER
      exact List.noConfusion hER
  | cons e rest =>
    cases hd : FadeIn.is_done (FadeIn.step e) with
    | true =>
      have hex : ∃ out c', Clip.next_bar c = some (out, c') := by
        simp only [Clip.next_bar, hsrc, hT, hE, FadeIn.process_state, hd,
          Clip.from_torch, FadeIn.process, List.map_cons, List.map_nil, if_true]
        exact ⟨_, _, rfl⟩
      obtain ⟨out, c', hnb⟩ := hex
      have hval := hnb
      simp only [Clip.next_bar, hsrc, hT, hE, FadeIn.process_state, hd,
        Clip.from_torch, FadeIn.process, List.map_cons, List.map_nil, if_true,
        Option.some.injEq, Prod.mk.injEq] at hval
      obtain ⟨hout, hc'⟩ := hval
      refine ⟨_, out, c', hT, hnb, ?_, ?_, ?_, ?_, ?_⟩
      · rw [← hout]
      · rw [← hc']
      · rw [← hc']
      · intro h
        exact List.noConfusion h
      · intro e' rest' hER
        injection hER with he hr
        subst he
        subst hr
        rw [← hc']
        simp [FadeIn.process_state, hd]
    | false =>
      have hex : ∃ out c', Clip.next_bar c = some (out, c') := by
        simp only [Clip.next_bar, hsrc, hT, hE, FadeIn.process_state, hd,
          Clip.from_torch, FadeIn.process, List.map_cons, List.map_nil,
          Bool.false_eq_true, if_false]
        exact ⟨_, _, rfl⟩
      obtain ⟨out, c', hnb⟩ := hex
      have hval := hnb
      simp only [Clip.next_bar, hsrc, hT, hE, FadeIn.process_state, hd,
        Clip.from_torch, FadeIn.process, List.map_cons, List.map_nil,
        Bool.false_eq_true, if_false,
        Option.some.injEq, Prod.mk.injEq] at hval
      obtain ⟨hout, hc'⟩ := hval
      refine ⟨_, out, c', hT, hnb, ?_, ?_, ?_, ?_, ?_⟩
      · rw [← hout]
      · rw [← hc']
      · rw [← hc']
      · intro h
        exact List.noConfusion h
      · intro e' rest' hER
        injection hER with he hr
        subst he
        subst hr
        rw [← hc']
        simp [FadeIn.process_state, hd]

lemma bar_count_eq {bpb k : ℕ} (hbpb : 0 < bpb) (len : ℕ) (hlen : len = bpb * k) :
    (len + bpb - 1) / bpb = k := by
  obtain ⟨b, rfl⟩ : ∃ b, bpb = b + 1 := ⟨bpb - 1, by omega⟩
  have e1 : len + (b + 1) - 1 = (b + 1) * k + b := by omega
  rw [e1, Nat.mul_add_div (by omega), Nat.div_eq_of_lt (by omega : b < b + 1)]
  omega

lemma chunks_length {bpb k : ℕ} (data : List ℕ) (hbpb : 0 < bpb)
    (hlen : data.length = bpb * k) :
    (chunks bpb data).length = k := by
  rw [chunks, List.length_map, List.length_range]
  exact bar_count_eq hbpb data.length hlen

lemma chunks_mem_length {bpb k : ℕ} (data : List ℕ) (hbpb : 0 < bpb)
    (hlen : data.length = bpb * k) :
    ∀ bar ∈ chunks bpb data, bar.length = bpb := by
  intro bar hbar
  simp only [chunks, List.mem_map, List.mem_range] at hbar
  obtain ⟨i, hi, rfl⟩ := hbar
  rw [bar_count_eq hbpb data.length hlen] at hi
  rw [List.length_take, List.length_drop, hlen]
  have h1 : bpb * k - i * bpb = (k - i) * bpb := by
    rw [Nat.sub_mul, Nat.mul_comm bpb k]
  have h2 : bpb ≤ (k - i) * bpb := by
    have : 1 * bpb ≤ (k - i) * bpb := Nat.mul_le_mul_right bpb (by omega)
    omega
  omega

lemma chunks_flatten {bpb : ℕ} (data : List ℕ) (hbpb : 0 < bpb) :
    ∀ k, data.length = bpb * k →
      ((chunks bpb data).map List.length).sum = bpb * k := by
  intro k hlen
  have h1 : (chunks bpb data).map List.length = List.replicate k bpb := by
    rw [List.eq_replicate_iff]
    constructor
    · rw [List.length_map]
      exact chunks_length data hbpb hlen
    · intro b hb
      simp only [List.mem_map] at hb
      obtain ⟨bar, hbar, rfl⟩ := hb
      exact chunks_mem_length data hbpb hlen bar hbar
  rw [h1, List.sum_replicate, smul_eq_mul, Nat.mul_comm]

lemma land_mask (k w n : ℕ) (hk : k ≤ w) :
    Nat.land n (2 ^ w - 2 ^ k) = 2 ^ k * (n % 2 ^ w / 2 ^ k) := by
  apply Nat.eq_of_testBit_eq
  intro i
  change ((n &&& (2 ^ w - 2 ^ k)).testBit i) = ((2 ^ k * (n % 2 ^ w / 2 ^ k)).testBit i)
  rw [Nat.testBit_land]
  have hmask : (2 ^ w - 2 ^ k) = (2 ^ (w - k) - 1) <<< k := by
    rw [Nat.shiftLeft_eq, Nat.sub_mul, one_mul, ← pow_add, Nat.sub_add_cancel hk]
  rw [hmask, Nat.testBit_shiftLeft, Nat.testBit_two_pow_sub_one]
  rw [show 2 ^ k * (n % 2 ^ w / 2 ^ k) = (n % 2 ^ w / 2 ^ k) <<< k by
    rw [Nat.shiftLeft_eq]; ring]
  rw [Nat.testBit_shiftLeft,
    show n % 2 ^ w / 2 ^ k = (n % 2 ^ w) >>> k by rw [Nat.shiftRight_eq_div_pow],
    Nat.testBit_shiftRight, Nat.testBit_mod_two_pow]
  by_cases hik : k ≤ i
  · have hki : k + (i - k) = i := by omega
    rw [hki]
    by_cases hiw : i < w
    · have h3 : i - k < w - k := by omega
      simp [hik, hiw, h3]
    · have h3 : ¬ (i - k < w - k) := by omega
      simp [hik, h3, hiw]
  · have h3 : ¬ (i ≥ k) := hik
    simp [h3]

lemma seek_eq_of_bps4 (s : MemorySource) (t : ℚ)
    (h4 : AudioFormat.bytes_per_sample s.audio_format = 4) :
    MemorySource.seek s t =
      4 * ((intTrunc (t * (AudioFormat.bytes_per_second s.audio_format : ℚ))).toNat
            % 2 ^ 32 / 4) := by
  unfold MemorySource.seek
  rw [h4]
  norm_num
  rw [show (0xfffffffc : ℕ) = 2 ^ 32 - 2 ^ 2 by norm_num]
  rw [land_mask 2 32 _ (by norm_num)]
  norm_num

lemma intTrunc_eq_floor {q : ℚ} (hq : 0 ≤ q) : intTrunc q = ⌊q⌋ := by
  unfold intTrunc
  rw [if_neg (by exact not_lt.mpr hq)]

lemma to_torch_zero : Clip.to_torch [0, 0, 0, 0] = some [[(0 : ℝ)], [(0 : ℝ)]] := by
  rw [to_torch_of_aligned _ (by decide)]
  norm_num [toWords, evens, odds]

lemma to_torch_ten : Clip.to_torch [16, 39, 0, 0] = some [[(10000 : ℝ)], [(0 : ℝ)]] := by
  rw [to_torch_of_aligned _ (by decide)]
  norm_num [toWords, evens, odds]

lemma fade_one (f : FadeIn) : FadeIn.fade f 1 = [amp f.gain] := by
  simp [FadeIn.fade, linspace]

lemma process_pair (f : FadeIn) (x y : ℝ) :
    FadeIn.process f [[x], [y]] =
      ([[x * amp f.gain], [y * amp f.gain]], FadeIn.step f) := by
  simp [FadeIn.process, lastDim, fade_one]

lemma from_torch_pair (a b : ℝ) :
    Clip.from_torch [[a], [b]] =
      some (int16Bytes (truncZ a) ++ int16Bytes (truncZ b)) := by
  simp [Clip.from_torch, interleave]

lemma truncZ_zero : truncZ (0 : ℝ) = 0 := by
  have := truncZ_intCast 0
  simpa using this

lemma truncZ_thousand : truncZ (1000 : ℝ) = 1000 := by
  have := truncZ_intCast 1000
  simpa using this

lemma int16Bytes_zero : int16Bytes 0 = [0, 0] := by
  norm_num [int16Bytes]

lemma int16Bytes_thousand : int16Bytes 1000 = [232, 3] := by
  norm_num [int16Bytes]
  decide

lemma cex_call1 :
    Clip.next_bar cexClip = some (⟨[0, 0, 0, 0], fmt16s⟩, cexClip1) := by
  have h1 : cexClip.bars[cexClip.bar]? = some srcZero := rfl
  have hstep : FadeIn.step ⟨-30, 10⟩ = ⟨-20, 10⟩ := by
    norm_num [FadeIn.step]
  have hdone : FadeIn.is_done ⟨-20, 10⟩ = false := by
    norm_num [FadeIn.is_done]
  simp only [Clip.next_bar, h1, show srcZero.data = [0, 0, 0, 0] from rfl,
    to_torch_zero, show cexClip.effects = [⟨-30, 10⟩] from rfl,
    process_pair, FadeIn.process_state, hstep, hdone, Bool.false_eq_true, if_false,
    zero_mul, from_torch_pair, truncZ_zero, int16Bytes_zero]
  norm_num [cexClip, cexClip1, Clip.mk0, FadeIn.mk0, srcZero, srcTen]

lemma cex_call2 :
    Clip.next_bar cexClip1 = some (⟨[232, 3, 0, 0], fmt16s⟩, cexClip2) := by
  have h1 : cexClip1.bars[cexClip1.bar]? = some srcTen := rfl
  have hstep : FadeIn.step ⟨-20, 10⟩ = ⟨-10, 10⟩ := by
    norm_num [FadeIn.step]
  have hdone : FadeIn.is_done ⟨-10, 10⟩ = false := by
    norm_num [FadeIn.is_done]
  have hmul : (10000 : ℝ) * amp (-20) = 1000 := by
    rw [amp_neg20]
    norm_num
  simp only [Clip.next_bar, h1, show srcTen.data = [16, 39, 0, 0] from rfl,
    to_torch_ten, show cexClip1.effects = [⟨-20, 10⟩] from rfl,
    process_pair, FadeIn.process_state, hstep, hdone, Bool.false_eq_true, if_false,
    zero_mul, hmul, from_torch_pair, truncZ_zero, truncZ_thousand, int16Bytes_zero,
    int16Bytes_thousand]
  norm_num [cexClip, cexClip1, cexClip2, Clip.mk0, FadeIn.mk0, srcZero, srcTen]

/-- C1: for a `FadeIn` constructed in its initial state (`gain_db = -30.0`,
`increment_db = 10.0`), `process()` calls `step()` internally exactly once
per call, and completion is reached after exactly 3 `process` calls: after
the 1st and 2nd calls `is_done()` returns `false`, after the 3rd call
`is_done()` returns `true`, and the ramp built by the 3rd call (for a bar
with at least two samples per channel) has final sample ratio exactly
`1.0`. -/
theorem fadeIn_completes_in_three_calls :
    (∀ (f : FadeIn) (td : Torch), (FadeIn.process f td).2 = FadeIn.step f) ∧
    FadeIn.is_done (fadeAt 1) = false ∧
    FadeIn.is_done (fadeAt 2) = false ∧
    FadeIn.is_done (fadeAt 3) = true ∧
    (∀ n : ℕ, 2 ≤ n → (FadeIn.fade (fadeAt 2) n).getLast? = some 1) := by
  refine ⟨FadeIn.process_state, ?_, ?_, ?_, ?_⟩
  · rw [fadeAt_one]
    norm_num [FadeIn.is_done]
  · rw [fadeAt_two]
    norm_num [FadeIn.is_done]
  · rw [fadeAt_three]
    norm_num [FadeIn.is_done]
  · intro n hn
    rw [fadeAt_two]
    unfold FadeIn.fade
    have hend : FadeIn.endGain ⟨-10, 10⟩ = 0 := by
      norm_num [FadeIn.endGain]
    rw [hend, amp_zero, linspace_getLast _ _ hn]

/-- Witness for C1 at a concrete tensor and ramp length `2`. -/
theorem fadeIn_completes_in_three_calls_w :
    (FadeIn.process FadeIn.mk0 [[(0 : ℝ)], [(0 : ℝ)]]).2 = FadeIn.step FadeIn.mk0 ∧
    (FadeIn.fade (fadeAt 2) 2).getLast? = some 1 :=
  ⟨fadeIn_completes_in_three_calls.1 FadeIn.mk0 [[(0 : ℝ)], [(0 : ℝ)]],
   fadeIn_completes_in_three_calls.2.2.2.2 2 (by decide)⟩

/-- C4: for every well-formed 16-bit stereo buffer (byte length a multiple
of 4, entries byte values), deinterleaving with `to_torch` followed by
reinterleaving with `from_torch`, with no effect applied in between,
reproduces the original byte sequence exactly. -/
theorem to_torch_from_torch_roundtrip (data : List ℕ)
    (h4 : data.length % 4 = 0) (hb : ∀ x ∈ data, x < 256) :
    (Clip.to_torch data).bind Clip.from_torch = some data :=
  roundtrip data h4 hb

/-- Witness for C4 on a concrete four-byte buffer. -/
theorem to_torch_from_torch_roundtrip_w :
    (Clip.to_torch [16, 39, 0, 0]).bind Clip.from_torch = some [16, 39, 0, 0] :=
  to_torch_from_torch_roundtrip [16, 39, 0, 0] (by decide) (by decide)

/-- C7: across any sequence of `FadeIn.process` calls from the initial
state, the gain ratio `10^(gain_db/20)` is monotonically non-decreasing and
never exceeds `1.0`: each call's end ratio is at least its start ratio, the
next call's start ratio equals the previous call's end ratio, and every
ramp sample is at most `1.0`, because `gain_db` stays clamped at or below
`0.0`. -/
theorem fadeIn_ratio_monotone :
    (∀ k, amp (fadeAt k).gain ≤ amp (fadeAt (k + 1)).gain) ∧
    (∀ k, amp (fadeAt k).gain ≤ 1) ∧
    (∀ k, amp (fadeAt k).gain ≤ amp (FadeIn.endGain (fadeAt k))) ∧
    (∀ k, amp (FadeIn.endGain (fadeAt k)) = amp (fadeAt (k + 1)).gain) ∧
    (∀ k n, ∀ x ∈ FadeIn.fade (fadeAt k) n, x ≤ 1) := by
  have hse : ∀ k, amp (fadeAt k).gain ≤ amp (FadeIn.endGain (fadeAt k)) := by
    intro k
    rw [FadeIn.endGain_eq_step_gain, ← fadeAt_succ]
    exact amp_mono (fadeAt_gain_mono k)
  refine ⟨fun k => amp_mono (fadeAt_gain_mono k),
    fun k => amp_le_one (fadeAt_gain_nonpos k), hse, ?_, ?_⟩
  · intro k
    rw [FadeIn.endGain_eq_step_gain, ← fadeAt_succ]
  · intro k n x hx
    unfold FadeIn.fade at hx
    have h1 := linspace_mem_le_right (hse k) n x hx
    have h2 : amp (FadeIn.endGain (fadeAt k)) ≤ 1 := by
      apply amp_le_one
      rw [FadeIn.endGain_eq_step_gain, ← fadeAt_succ]
      exact fadeAt_gain_nonpos (k + 1)
    exact le_trans h1 h2

/-- Witness for C7: the single ramp sample of a length-1 ramp in the
initial state is at most `1.0`. -/
theorem fadeIn_ratio_monotone_w :
    amp (fadeAt 0).gain ≤ 1 :=
  fadeIn_ratio_monotone.2.2.2.2 0 1 (amp (fadeAt 0).gain)
    (by rw [fade_one]; exact List.mem_singleton.mpr rfl)

/-- C2: in every `next_bar()` call that processes a bar, the head effect of
the chain is removed during that call if and only if `is_done()` returns
true on the head immediately after its `process()` ran in that same call;
when the chain is empty the bar's bytes are returned unmodified. -/
theorem effect_chain_pop_iff_done (c : Clip) (src : MemorySource)
    (hsrc : c.bars[c.bar]? = some src)
    (h4 : src.data.length % 4 = 0)
    (hb : ∀ x ∈ src.data, x < 256) :
    ∃ td out c',
      Clip.to_torch src.data = some td ∧
      Clip.next_bar c = some (out, c') ∧
      (∀ e rest, c.effects = e :: rest →
        (c'.effects = rest ↔ FadeIn.is_done (FadeIn.process e td).2 = true)) ∧
      (c.effects = [] → c'.effects = [] ∧ out.data = src.data) := by
  obtain ⟨td, out, c', hT, hnb, _, _, _, hnil, hcons⟩ := next_bar_spec c src hsrc h4
  refine ⟨td, out, c', hT, hnb, ?_, ?_⟩
  · intro e rest hE
    have h := hcons e rest hE
    constructor
    · intro hr
      by_contra hd
      have hd' : FadeIn.is_done (FadeIn.process e td).2 = false := by
        cases hx : FadeIn.is_done (FadeIn.process e td).2
        · rfl
        · exact absurd hx hd
      rw [hd'] at h
      simp only [Bool.false_eq_true, if_false] at h
      rw [hr] at h
      exact List.cons_ne_self _ _ h.symm
    · intro hd
      rw [h, if_pos hd]
  · intro hE
    obtain ⟨h1, h2⟩ := hnil hE
    exact ⟨h1, h2 hb⟩

/-- Witness for C2 at the concrete fresh two-bar clip. -/
theorem effect_chain_pop_iff_done_w :
    ∃ td out c',
      Clip.to_torch srcZero.data = some td ∧
      Clip.next_bar cexClip = some (out, c') ∧
      (∀ e rest, cexClip.effects = e :: rest →
        (c'.effects = rest ↔ FadeIn.is_done (FadeIn.process e td).2 = true)) ∧
      (cexClip.effects = [] → c'.effects = [] ∧ out.data = srcZero.data) :=
  effect_chain_pop_iff_done cexClip srcZero (by decide) (by decide) (by decide)

/-- C3: every processed `next_bar()` call advances the cursor to
`(cursor + 1) mod len(bars)`, keeping `0 ≤ cursor < len(bars)`; for a clip
with two bars and a fresh `FadeIn` chain, two calls cycle the cursor
`0 → 1 → 0` and leave the not-yet-complete `FadeIn` in the chain, and on
the concrete two-bar instance the two calls return two distinct buffers. -/
theorem next_bar_cursor_invariant :
    (∀ (c : Clip) (src : MemorySource),
      c.bars[c.bar]? = some src →
      src.data.length % 4 = 0 →
      ∃ out c', Clip.next_bar c = some (out, c') ∧
        c'.bar = (c.bar + 1) % c.bars.length ∧
        c'.bar < c.bars.length) ∧
    (∀ (name element key : String) (bpm : ℚ) (b0 b1 : MemorySource),
      b0.data.length % 4 = 0 → b1.data.length % 4 = 0 →
      ∃ o1 c1 o2 c2,
        Clip.next_bar (Clip.mk0 name element [b0, b1] bpm key) = some (o1, c1) ∧
        Clip.next_bar c1 = some (o2, c2) ∧
        c1.bar = 1 ∧ c2.bar = 0 ∧
        c2.effects = [⟨-10, 10⟩] ∧ FadeIn.is_done ⟨-10, 10⟩ = false) ∧
    (Clip.next_bar cexClip = some (⟨[0, 0, 0, 0], fmt16s⟩, cexClip1) ∧
      Clip.next_bar cexClip1 = some (⟨[232, 3, 0, 0], fmt16s⟩, cexClip2) ∧
      ([0, 0, 0, 0] : List ℕ) ≠ [232, 3, 0, 0]) := by
  refine ⟨?_, ?_, cex_call1, cex_call2, by decide⟩
  · intro c src hsrc h4
    obtain ⟨td, out, c', hT, hnb, _, hbar, hbars, _, _⟩ := next_bar_spec c src hsrc h4
    have hlen : c.bar < c.bars.length := by
      by_contra h
      rw [List.getElem?_eq_none (by omega)] at hsrc
      exact Option.noConfusion hsrc
    refine ⟨out, c', hnb, hbar, ?_⟩
    rw [hbar]
    exact Nat.mod_lt _ (by omega)
  · intro name element key bpm b0 b1 h0 h1
    obtain ⟨td1, o1, c1, hT1, hnb1, _, hbar1, hbars1, _, hcons1⟩ :=
      next_bar_spec (Clip.mk0 name element [b0, b1] bpm key) b0 rfl h0
    have he1 : c1.effects = [⟨-20, 10⟩] := by
      have h := hcons1 FadeIn.mk0 [] rfl
      rw [h, FadeIn.process_state]
      norm_num [FadeIn.step, FadeIn.is_done, FadeIn.mk0]
    have hbar1' : c1.bar = 1 := by
      rw [hbar1]
      rfl
    have hsrc1 : c1.bars[c1.bar]? = some b1 := by
      rw [hbar1', hbars1]
      rfl
    obtain ⟨td2, o2, c2, hT2, hnb2, _, hbar2, hbars2, _, hcons2⟩ :=
      next_bar_spec c1 b1 hsrc1 h1
    have he2 : c2.effects = [⟨-10, 10⟩] := by
      have h := hcons2 ⟨-20, 10⟩ [] he1
      rw [h, FadeIn.process_state]
      norm_num [FadeIn.step, FadeIn.is_done]
    have hbar2' : c2.bar = 0 := by
      rw [hbar2, hbar1', hbars1]
      simp [Clip.mk0]
    exact ⟨o1, c1, o2, c2, hnb1, hnb2, hbar1', hbar2', he2,
      by norm_num [FadeIn.is_done]⟩

/-- Witness for C3: the cursor law instantiated at the concrete fresh
two-bar clip. -/
theorem next_bar_cursor_invariant_w :
    ∃ out c', Clip.next_bar cexClip = some (out, c') ∧
      c'.bar = (cexClip.bar + 1) % cexClip.bars.length ∧
      c'.bar < cexClip.bars.length :=
  next_bar_cursor_invariant.1 cexClip srcZero (by decide) (by decide)

/-- C10: every newly constructed `Clip` starts with cursor `0`, state
`"cued"`, magnitude `1.0` and an effect chain holding exactly one fresh
`FadeIn` with `gain_db = -30.0` and `increment_db = 10.0`; consequently the
first three `next_bar()` calls each find a (not yet complete) `FadeIn` at
the head of the chain and apply it, and the chain only becomes empty after
the third call. -/
theorem clip_mk_initial_state :
    (∀ (name element : String) (bars : List MemorySource) (bpm : ℚ) (key : String),
      (Clip.mk0 name element bars bpm key).bar = 0 ∧
      (Clip.mk0 name element bars bpm key).state = "cued" ∧
      (Clip.mk0 name element bars bpm key).magnitude = 1 ∧
      (Clip.mk0 name element bars bpm key).effects = [⟨-30, 10⟩]) ∧
    (∀ (name element : String) (bars : List MemorySource) (bpm : ℚ) (key : String),
      bars ≠ [] →
      (∀ src ∈ bars, src.data.length % 4 = 0) →
      ∃ o1 c1 o2 c2 o3 c3,
        Clip.next_bar (Clip.mk0 name element bars bpm key) = some (o1, c1) ∧
        Clip.next_bar c1 = some (o2, c2) ∧
        Clip.next_bar c2 = some (o3, c3) ∧
        (Clip.mk0 name element bars bpm key).effects = [⟨-30, 10⟩] ∧
        c1.effects = [⟨-20, 10⟩] ∧
        c2.effects = [⟨-10, 10⟩] ∧
        c3.effects = []) := by
  refine ⟨fun name element bars bpm key => ⟨rfl, rfl, rfl, rfl⟩, ?_⟩
  intro name element bars bpm key hne hal
  have hL : 0 < bars.length := List.length_pos.mpr hne
  have hb0 : (Clip.mk0 name element bars bpm key).bar <
      (Clip.mk0 name element bars bpm key).bars.length := hL
  obtain ⟨src0, hsrc0⟩ : ∃ src, (Clip.mk0 name element bars bpm key).bars[
      (Clip.mk0 name element bars bpm key).bar]? = some src :=
    ⟨_, List.getElem?_eq_getElem hb0⟩
  have hmem0 : src0 ∈ bars := List.getElem?_mem hsrc0
  obtain ⟨td1, o1, c1, hT1, hnb1, _, hbar1, hbars1, _, hcons1⟩ :=
    next_bar_spec (Clip.mk0 name element bars bpm key) _ hsrc0 (hal _ hmem0)
  have he1 : c1.effects = [⟨-20, 10⟩] := by
    have h := hcons1 FadeIn.mk0 [] rfl
    rw [h, FadeIn.process_state]
    norm_num [FadeIn.step, FadeIn.is_done, FadeIn.mk0]
  have hb1 : c1.bar < c1.bars.length := by
    rw [hbar1, hbars1]
    exact Nat.mod_lt _ hL
  obtain ⟨src1, hsrc1⟩ : ∃ src, c1.bars[c1.bar]? = some src :=
    ⟨_, List.getElem?_eq_getElem hb1⟩
  have hmem1 : src1 ∈ bars := by
    have h := List.getElem?_mem hsrc1
    rw [hbars1] at h
    exact h
  obtain ⟨td2, o2, c2, hT2, hnb2, _, hbar2, hbars2, _, hcons2⟩ :=
    next_bar_spec c1 _ hsrc1 (hal _ hmem1)
  have he2 : c2.effects = [⟨-10, 10⟩] := by
    have h := hcons2 ⟨-20, 10⟩ [] he1
    rw [h, FadeIn.process_state]
    norm_num [FadeIn.step, FadeIn.is_done]
  have hb2 : c2.bar < c2.bars.length := by
    rw [hbar2, hbars2, hbars1]
    exact Nat.mod_lt _ hL
  obtain ⟨src2, hsrc2⟩ : ∃ src, c2.bars[c2.bar]? = some src :=
    ⟨_, List.getElem?_eq_getElem hb2⟩
  have hmem2 : src2 ∈ bars := by
    have h := List.getElem?_mem hsrc2
    rw [hbars2, hbars1] at h
    exact h
  obtain ⟨td3, o3, c3, hT3, hnb3, _, hbar3, hbars3, _, hcons3⟩ :=
    next_bar_spec c2 _ hsrc2 (hal _ hmem2)
  have he3 : c3.effects = [] := by
    have h := hcons3 ⟨-10, 10⟩ [] he2
    rw [h, FadeIn.process_state]
    norm_num [FadeIn.step, FadeIn.is_done]
  exact ⟨o1, c1, o2, c2, o3, c3, hnb1, hnb2, hnb3, rfl, he1, he2, he3⟩

/-- Witness for C10 at the concrete fresh two-bar clip. -/
theorem clip_mk_initial_state_w :
    ∃ o1 c1 o2 c2 o3 c3,
      Clip.next_bar (Clip.mk0 "cex" "intro" [srcZero, srcTen] 128 "8A") = some (o1, c1) ∧
      Clip.next_bar c1 = some (o2, c2) ∧
      Clip.next_bar c2 = some (o3, c3) ∧
      (Clip.mk0 "cex" "intro" [srcZero, srcTen] 128 "8A").effects = [⟨-30, 10⟩] ∧
      c1.effects = [⟨-20, 10⟩] ∧
      c2.effects = [⟨-10, 10⟩] ∧
      c3.effects = [] :=
  clip_mk_initial_state.2 "cex" "intro" [srcZero, srcTen] 128 "8A"
    (by decide) (by decide)

lemma spb_tiny : samples_per_beat 60 fmtTiny.sample_rate = 2 := by
  norm_num [samples_per_beat, pyRound, fmtTiny]

/-- C5: the bar slicer computes
`samples_per_beat = round(60.0/bpm * sample_rate)` and
`bytes_per_bar = 4 * samples_per_beat * bytes_per_sample` (`20672` and
`330752` for 44100 Hz, 128 bpm, 16-bit stereo), and on inputs whose
extracted byte count is an exact multiple of `bytes_per_bar` it produces
exactly `total_beats / 4` bars whose data lengths sum to
`bytes_per_bar * bar_count`, each bar sharing the source's format. -/
theorem bar_slicer_counts :
    samples_per_beat 128 44100 = 20672 ∧
    4 * (samples_per_beat 128 44100).toNat * AudioFormat.bytes_per_sample fmt16s =
      330752 ∧
    (∀ (fmt : AudioFormat) (bpm : ℚ) (beats : ℕ) (decoded : List ℕ),
      0 < (samples_per_beat bpm fmt.sample_rate).toNat →
      0 < AudioFormat.bytes_per_sample fmt →
      beats % 4 = 0 →
      decoded.length =
        (samples_per_beat bpm fmt.sample_rate).toNat *
          AudioFormat.bytes_per_sample fmt * beats →
      ∃ bars,
        cache_active_clip true true decoded fmt bpm beats = CacheResult.cached bars ∧
        bars.length = beats / 4 ∧
        (bars.map (fun b => b.data.length)).sum =
          4 * (samples_per_beat bpm fmt.sample_rate).toNat *
            AudioFormat.bytes_per_sample fmt * (beats / 4) ∧
        ∀ b ∈ bars, b.audio_format = fmt) := by
  refine ⟨?_, ?_, ?_⟩
  · norm_num [samples_per_beat, pyRound]
  · norm_num [samples_per_beat, pyRound, fmt16s, AudioFormat.bytes_per_sample]
    decide
  · intro fmt bpm beats decoded hspb hbps hdiv hlen
    obtain ⟨q, rfl⟩ : ∃ q, beats = 4 * q := ⟨beats / 4, by omega⟩
    have hq : 4 * q / 4 = q := by omega
    have hlen2 : decoded.length =
        (4 * (samples_per_beat bpm fmt.sample_rate).toNat *
          AudioFormat.bytes_per_sample fmt) * q := by
      rw [hlen]
      ring
    have hbpb : 0 < 4 * (samples_per_beat bpm fmt.sample_rate).toNat *
        AudioFormat.bytes_per_sample fmt :=
      Nat.mul_pos (Nat.mul_pos (by norm_num) hspb) hbps
    have hfull : decoded.take ((samples_per_beat bpm fmt.sample_rate).toNat *
        AudioFormat.bytes_per_sample fmt * (4 * q)) = decoded :=
      List.take_of_length_le (by rw [hlen])
    have hcac : cache_active_clip true true decoded fmt bpm (4 * q) =
        CacheResult.cached
          ((chunks (4 * (samples_per_beat bpm fmt.sample_rate).toNat *
              AudioFormat.bytes_per_sample fmt)
            (decoded.take ((samples_per_beat bpm fmt.sample_rate).toNat *
              AudioFormat.bytes_per_sample fmt * (4 * q)))).map
            (fun d => ⟨d, fmt⟩)) := rfl
    refine ⟨_, by rw [hcac, hfull], ?_, ?_, ?_⟩
    · rw [List.length_map, chunks_length decoded hbpb hlen2, hq]
    · rw [List.map_map]
      have hcomp : ((fun b => MemorySource.data b |>.length) ∘
          (fun d => (⟨d, fmt⟩ : MemorySource))) = List.length := rfl
      rw [hcomp, chunks_flatten decoded hbpb q hlen2, hq]
    · intro b hb
      simp only [List.mem_map] at hb
      obtain ⟨d, _, rfl⟩ := hb
      rfl

/-- Witness for C5 on a tiny divisible instance: 2 Hz 16-bit stereo,
60 bpm, 4 beats, 32 decoded bytes. -/
theorem bar_slicer_counts_w :
    ∃ bars,
      cache_active_clip true true (List.replicate 32 0) fmtTiny 60 4 =
        CacheResult.cached bars ∧
      bars.length = 4 / 4 ∧
      (bars.map (fun b => b.data.length)).sum =
        4 * (samples_per_beat 60 fmtTiny.sample_rate).toNat *
          AudioFormat.bytes_per_sample fmtTiny * (4 / 4) ∧
      ∀ b ∈ bars, b.audio_format = fmtTiny :=
  bar_slicer_counts.2.2 fmtTiny 60 4 (List.replicate 32 0)
    (by rw [spb_tiny]; decide) (by decide) (by decide)
    (by rw [spb_tiny]; decide)

/-- C6 (amended): `seek(t)` computes `int(t * bytes_per_second)` and masks
its low bit (`bytes_per_sample = 2`) or low two bits (`bytes_per_sample =
4`) with a 32-bit mask; for `t ≥ 0` the truncation is the floor, and for a
16-bit stereo format the result is always congruent to 0 mod 4, but it
equals the floor rounded down to the nearest multiple of 4 only when the
floor is below `2^32` — the mask also truncates larger offsets to their
low 32 bits. -/
theorem seek_alignment_16bit_stereo :
    ∀ (s : MemorySource) (t : ℚ),
      0 ≤ t →
      s.audio_format.channels = 2 →
      s.audio_format.sample_size = 16 →
      MemorySource.seek s t % 4 = 0 ∧
      intTrunc (t * (AudioFormat.bytes_per_second s.audio_format : ℚ)) =
        ⌊t * (AudioFormat.bytes_per_second s.audio_format : ℚ)⌋ ∧
      ((intTrunc (t * (AudioFormat.bytes_per_second s.audio_format : ℚ))).toNat
          < 2 ^ 32 →
        MemorySource.seek s t =
          4 * ((intTrunc (t * (AudioFormat.bytes_per_second s.audio_format : ℚ))).toNat
            / 4)) := by
  intro s t ht h2 h16
  have hbps : AudioFormat.bytes_per_sample s.audio_format = 4 := by
    unfold AudioFormat.bytes_per_sample
    rw [h2, h16]
  have hseek := seek_eq_of_bps4 s t hbps
  refine ⟨?_, ?_, ?_⟩
  · rw [hseek]
    exact Nat.mul_mod_right 4 _
  · exact intTrunc_eq_floor (mul_nonneg ht (by positivity))
  · intro hlt
    rw [hseek, Nat.mod_eq_of_lt hlt]

/-- Witness for C6 at `t = 1` on the 16-bit stereo format. -/
theorem seek_alignment_16bit_stereo_w :
    MemorySource.seek ⟨[], fmt16s⟩ 1 % 4 = 0 :=
  (seek_alignment_16bit_stereo ⟨[], fmt16s⟩ 1 (by norm_num) rfl rfl).1

/-- Counterexample for C6 as stated: at `t = 24350` s on 16-bit stereo at
44100 Hz the floor offset is `4295340000 ≥ 2^32`, and the masked offset
`372704` is not the floor rounded down to the nearest multiple of 4. -/
theorem seek_not_floor_rounded_cex :
    MemorySource.seek ⟨[], fmt16s⟩ 24350 ≠
      4 * ((⌊(24350 : ℚ) *
        ((AudioFormat.bytes_per_second fmt16s : ℕ) : ℚ)⌋).toNat / 4) := by
  have hbps : AudioFormat.bytes_per_sample fmt16s = 4 := by
    norm_num [fmt16s, AudioFormat.bytes_per_sample]
  have hseek := seek_eq_of_bps4 ⟨[], fmt16s⟩ 24350 hbps
  have hsfmt : (⟨[], fmt16s⟩ : MemorySource).audio_format = fmt16s := rfl
  rw [hseek, hsfmt]
  have h1 : intTrunc ((24350 : ℚ) *
      ((AudioFormat.bytes_per_second fmt16s : ℕ) : ℚ)) = 4295340000 := by
    rw [intTrunc_eq_floor (by positivity)]
    norm_num [fmt16s, AudioFormat.bytes_per_second, AudioFormat.bytes_per_sample]
  have h2 : (⌊(24350 : ℚ) *
      ((AudioFormat.bytes_per_second fmt16s : ℕ) : ℚ)⌋) = 4295340000 := by
    norm_num [fmt16s, AudioFormat.bytes_per_second, AudioFormat.bytes_per_sample]
  rw [h1, h2]
  norm_num
  decide

/-- C8: slicing failure modes at concrete inputs: a missing media file makes
`cache_active_clip` terminate the whole process (`exit(0)`, modelled as
`processExit`), and a decoded stream shorter than the requested extent is
silently sliced into an undersized bar with no error value of any kind. -/
theorem cache_active_clip_failure_modes :
    cache_active_clip true false [] fmtTiny 60 4 = CacheResult.processExit ∧
    cache_active_clip true true (List.replicate 8 0) fmtTiny 60 4 =
      CacheResult.cached [⟨List.replicate 8 0, fmtTiny⟩] ∧
    (List.replicate 8 (0 : ℕ)).length <
      4 * (samples_per_beat 60 fmtTiny.sample_rate).toNat *
        AudioFormat.bytes_per_sample fmtTiny := by
  refine ⟨rfl, ?_, ?_⟩
  · have hcac : cache_active_clip true true (List.replicate 8 0) fmtTiny 60 4 =
        CacheResult.cached
          ((chunks (4 * (samples_per_beat 60 fmtTiny.sample_rate).toNat *
              AudioFormat.bytes_per_sample fmtTiny)
            ((List.replicate 8 0).take ((samples_per_beat 60 fmtTiny.sample_rate).toNat *
              AudioFormat.bytes_per_sample fmtTiny * 4))).map
            (fun d => ⟨d, fmtTiny⟩)) := rfl
    rw [hcac, spb_tiny]
    decide
  · rw [spb_tiny]
    decide

/-- C9 (amended): `to_torch` always deinterleaves into exactly two channel
arrays — stereo is assumed rather than read from the buffer's format — each
of length a quarter of the byte count, which equals the buffer's sample
count only for 16-bit two-channel formats. -/
theorem to_torch_stereo_assumed :
    ∀ (data : List ℕ), data.length % 4 = 0 →
      ∃ td, Clip.to_torch data = some td ∧
        td.length = 2 ∧
        (∀ ch ∈ td, ch.length = data.length / 4) ∧
        (∀ fmt : AudioFormat, fmt.channels = 2 → fmt.sample_size = 16 →
          data.length / 4 = data.length / AudioFormat.bytes_per_sample fmt) := by
  intro data h4
  refine ⟨_, to_torch_of_aligned data h4, rfl, ?_, ?_⟩
  · intro ch hch
    simp only [List.mem_cons, List.not_mem_nil, or_false] at hch
    rcases hch with rfl | rfl
    · rw [List.length_map, evens_length, toWords_length]
      omega
    · rw [List.length_map, odds_length, toWords_length]
      omega
  · intro fmt h2 h16
    have hb : AudioFormat.bytes_per_sample fmt = 4 := by
      unfold AudioFormat.bytes_per_sample
      rw [h2, h16]
    rw [hb]

/-- Witness for C9 (amended) on a concrete four-byte buffer. -/
theorem to_torch_stereo_assumed_w :
    ∃ td, Clip.to_torch [16, 39, 0, 0] = some td ∧
      td.length = 2 ∧
      (∀ ch ∈ td, ch.length = ([16, 39, 0, 0] : List ℕ).length / 4) ∧
      (∀ fmt : AudioFormat, fmt.channels = 2 → fmt.sample_size = 16 →
        ([16, 39, 0, 0] : List ℕ).length / 4 =
          ([16, 39, 0, 0] : List ℕ).length / AudioFormat.bytes_per_sample fmt) :=
  to_torch_stereo_assumed [16, 39, 0, 0] (by decide)

/-- Counterexample for C9 as stated: on a buffer whose format is 16-bit
mono, deinterleaving still produces two channel arrays, not one per the
format's channel count. -/
theorem to_torch_channels_from_format_cex :
    ¬ ((Clip.to_torch srcMono.data).map List.length =
        some srcMono.audio_format.channels) := by
  rw [show srcMono.data = [0, 0, 0, 0] from rfl, to_torch_zero]
  simp [srcMono, fmtMono]

end Mixaqubes
